import Mathlib

/-!
A shallow embedding of `src/main.rs` (leetcode "max points on one line").

Machine integers (`i32`) are modelled as `Int`; the spec assumes inputs fit the
integer width with no overflow in subtraction or multiplication (§7), so no
wraparound is modelled.  Rust's `/` and `%` on `i32` truncate toward zero, so
they are modelled by `Int.tdiv` and `Int.tmod`.  Rust `HashMap`s are modelled
as association lists: insertion order is deterministic here, which fixes one
admissible iteration order (the observable results proved below depend only on
the key-to-value mapping, not on that order).  The `unwrap` on the possibly
empty maximum in `max_collinear_points` is modelled by an `Option` result,
`none` standing for the panic.  The raw input `Vec<Vec<i32>>` (each inner
vector indexed at 0 and 1) is modelled as a list of pairs, which captures
exactly the in-bounds behaviour the program relies on.
-/

namespace MaxPoints

/-- struct `RationalNumber` (mod `rational`): integer numerator and
denominator. -/
structure RationalNumber where
  numerator : Int
  denominator : Int
deriving DecidableEq, Repr

/-- fn `greatest_common_divisor`: recursive Euclid.  The Rust body shadows
`a`, `b` by their absolute values and recurses on `(b, a % b)`; Rust `%` on
`i32` is `Int.tmod`. -/
def greatest_common_divisor (a b : Int) : Int :=
  if a = 0 then b
  else if b = 0 then a
  else greatest_common_divisor (b.natAbs : Int) (Int.tmod (a.natAbs : Int) (b.natAbs : Int))
termination_by b.natAbs
decreasing_by
  have hb0 : b ≠ 0 := by assumption
  have h1 : (0 : Int) < (b.natAbs : Int) := by exact_mod_cast Int.natAbs_pos.mpr hb0
  have h2 := Int.tmod_lt_of_pos (a.natAbs : Int) h1
  have h3 := Int.tmod_nonneg ((b.natAbs : Nat) : Int) (Int.ofNat_nonneg a.natAbs)
  omega

/-- `RationalNumber::new`: divide both components by their gcd (Rust `/` on
`i32` is truncating division). -/
def RationalNumber.new (numerator denominator : Int) : RationalNumber :=
  let gcd := greatest_common_divisor numerator denominator
  { numerator := numerator.tdiv gcd, denominator := denominator.tdiv gcd }

/-- struct `Point`. -/
structure Point where
  x : Int
  y : Int
deriving DecidableEq, Repr

/-- enum `Slope`. -/
inductive Slope where
  | Undefined : Slope
  | Defined : RationalNumber → Slope
deriving DecidableEq, Repr

/-- fn `slope(a, b)`. -/
def slope (a b : Point) : Slope :=
  if a.x = b.x then Slope.Undefined
  else Slope.Defined (RationalNumber.new (a.y - b.y) (a.x - b.x))

/-- struct `Line` (the source spells the intercept field `x_intercect`). -/
structure Line where
  slope : Slope
  x_intercect : Int
deriving DecidableEq, Repr

/-- `Line::new(a, b)` (truncating division in the `Defined` arm). -/
def Line.new (a b : Point) : Line :=
  match MaxPoints.slope a b with
  | Slope.Undefined => { slope := Slope.Undefined, x_intercect := a.x }
  | Slope.Defined s =>
      { slope := Slope.Defined s
        x_intercect := a.y - (s.numerator * a.x).tdiv s.denominator }

/-- One `HashMap<Line, Vec<Point>>` update step of `lines_containing`: if the
line is already a key, push `other_point` onto its `Vec`; otherwise insert a
fresh entry `[point, other_point]`. -/
def updateBucket (l : Line) (point other_point : Point) :
    List (Line × List Point) → List (Line × List Point)
  | [] => [(l, [point, other_point])]
  | (l', ps) :: rest =>
      if l' = l then (l', ps ++ [other_point]) :: rest
      else (l', ps) :: updateBucket l point other_point rest

/-- fn `lines_containing`: bucket every point different from `point` by the
line it spans with `point`. -/
def lines_containing (point : Point) (all_points : List Point) :
    List (Line × List Point) :=
  (all_points.filter (fun other_point => other_point ≠ point)).foldl
    (fun lines other_point =>
      updateBucket (Line.new point other_point) point other_point lines)
    []

/-- Rust's `Iterator::max_by` with comparison `p.1.len().cmp(&q.1.len())`:
`none` on an empty iterator, otherwise the LAST entry of maximal `Vec` length
(ties keep the later element). -/
def maxBy {α : Type} : List (α × List Point) → Option (α × List Point)
  | [] => none
  | e :: rest =>
      some (rest.foldl (fun best f => if f.2.length < best.2.length then best else f) e)

/-- fn `collinear_group`: the largest bucket of `lines_containing`, or
`[point]` when there is none. -/
def collinear_group (point : Point) (all_points : List Point) : List Point :=
  match maxBy (lines_containing point all_points) with
  | some e => e.2
  | none => [point]

/-- One `HashMap<Point, Vec<Point>>` collect step: later entries with an equal
key overwrite earlier ones. -/
def insertReplace (k : Point) (v : List Point) :
    List (Point × List Point) → List (Point × List Point)
  | [] => [(k, v)]
  | (k', v') :: rest =>
      if k' = k then (k, v) :: rest
      else (k', v') :: insertReplace k v rest

/-- fn `collinear_groups`: one `collinear_group` per input point, collected
into a map keyed by the point. -/
def collinear_groups (points : List Point) : List (Point × List Point) :=
  points.foldl (fun m point => insertReplace point (collinear_group point points) m) []

/-- fn `max_collinear_points`: raw pairs to `Point`s, then the length of the
longest group.  `none` models the `unwrap` panic on empty input. -/
def max_collinear_points (raw_points : List (Int × Int)) : Option Nat :=
  let points : List Point := raw_points.map (fun p => Point.mk p.1 p.2)
  match maxBy (collinear_groups points) with
  | some e => some e.2.length
  | none => none

/-! ### Closed form of the gcd -/

/-- The recursive `greatest_common_divisor` agrees with the mathematical gcd of
the absolute values, except that a zero first argument returns the second
argument unchanged (sign included). -/
theorem gcd_eval (a b : Int) : greatest_common_divisor a b =
    if a = 0 then b else if b = 0 then a else ((a.natAbs.gcd b.natAbs : Nat) : Int) := by
  induction a, b using greatest_common_divisor.induct with
  | case1 b =>
      rw [greatest_common_divisor]
      simp
  | case2 a h =>
      rw [greatest_common_divisor]
      simp [h]
  | case3 a b h1 h2 ih =>
      rw [greatest_common_divisor]
      rw [if_neg h1, if_neg h2, if_neg h1, if_neg h2]
      rw [← Int.ofNat_tmod] at ih
      rw [← Int.ofNat_tmod, ih]
      have hb : b.natAbs ≠ 0 := by simpa using h2
      have hb' : ((b.natAbs : Nat) : Int) ≠ 0 := by exact_mod_cast hb
      rw [if_neg hb']
      have hg : a.natAbs.gcd b.natAbs = b.natAbs.gcd (a.natAbs % b.natAbs) := by
        rw [Nat.gcd_comm a.natAbs b.natAbs, Nat.gcd_rec b.natAbs a.natAbs, Nat.gcd_comm]
      by_cases hr : a.natAbs % b.natAbs = 0
      · rw [hr, hg, hr, Nat.gcd_zero_right]
        simp
      · have hr' : ((a.natAbs % b.natAbs : Nat) : Int) ≠ 0 := by exact_mod_cast hr
        rw [if_neg hr', hg]
        simp only [Int.natAbs_ofNat]

theorem gcd_of_ne_zero {a b : Int} (ha : a ≠ 0) (hb : b ≠ 0) :
    greatest_common_divisor a b = ((Int.gcd a b : Nat) : Int) := by
  rw [gcd_eval, if_neg ha, if_neg hb, Int.gcd]

theorem gcd_ne_zero {a b : Int} (hb : b ≠ 0) : greatest_common_divisor a b ≠ 0 := by
  rw [gcd_eval]
  by_cases ha : a = 0
  · simpa [ha] using hb
  · rw [if_neg ha, if_neg hb]
    have : a.natAbs.gcd b.natAbs ≠ 0 := by
      simp [Nat.gcd_eq_zero_iff, ha]
    exact_mod_cast this

/-! ### `RationalNumber.new` in closed form -/

theorem new_of_zero {d : Int} (hd : d ≠ 0) : RationalNumber.new 0 d = ⟨0, 1⟩ := by
  simp [RationalNumber.new, gcd_eval, Int.tdiv_self hd]

theorem new_of_ne_zero {n d : Int} (hn : n ≠ 0) (hd : d ≠ 0) :
    RationalNumber.new n d =
      ⟨n / ((Int.gcd n d : Nat) : Int), d / ((Int.gcd n d : Nat) : Int)⟩ := by
  rw [RationalNumber.new]
  rw [gcd_of_ne_zero hn hd]
  rw [Int.tdiv_eq_ediv_of_dvd (by exact_mod_cast Int.gcd_dvd_left),
    Int.tdiv_eq_ediv_of_dvd (by exact_mod_cast Int.gcd_dvd_right)]

/-- After construction with a nonzero denominator the stored pair is reduced:
the gcd of the absolute values of the fields is `1`. -/
theorem new_reduced {n d : Int} (hd : d ≠ 0) :
    Nat.gcd (RationalNumber.new n d).numerator.natAbs
      (RationalNumber.new n d).denominator.natAbs = 1 := by
  by_cases hn : n = 0
  · subst hn
    rw [new_of_zero hd]
    simp
  · rw [new_of_ne_zero hn hd]
    have hpos : 0 < Int.gcd n d := Int.gcd_pos_of_ne_zero_left d hn
    have := Int.gcd_div_gcd_div_gcd hpos
    simpa [Int.gcd] using this

/-- Uniqueness of the reduced representation when both denominators carry the
same sign: a coprime pair is determined by its cross-ratio and the sign of its
denominator. -/
theorem reduced_unique {u1 v1 u2 v2 : Int} (hcop1 : Int.gcd u1 v1 = 1)
    (hcop2 : Int.gcd u2 v2 = 1) (hv : 0 < v1 * v2) (hcross : u1 * v2 = u2 * v1) :
    u1 = u2 ∧ v1 = v2 := by
  have hv1ne : v1 ≠ 0 := by
    rintro rfl
    simp at hv
  have hv2ne : v2 ≠ 0 := by
    rintro rfl
    simp at hv
  have hdvd12 : v1 ∣ v2 := by
    have h1 : v1 ∣ u2 * v1 := dvd_mul_left v1 u2
    rw [← hcross] at h1
    have hco : IsCoprime v1 u1 :=
      Int.gcd_eq_one_iff_coprime.mp (by rwa [Int.gcd_comm] at hcop1)
    exact hco.dvd_of_dvd_mul_left h1
  have hdvd21 : v2 ∣ v1 := by
    have h1 : v2 ∣ u1 * v2 := dvd_mul_left v2 u1
    rw [hcross] at h1
    have hco : IsCoprime v2 u2 :=
      Int.gcd_eq_one_iff_coprime.mp (by rwa [Int.gcd_comm] at hcop2)
    exact hco.dvd_of_dvd_mul_left h1
  have habs : v1.natAbs = v2.natAbs :=
    Nat.dvd_antisymm (Int.natAbs_dvd_natAbs.mpr hdvd12) (Int.natAbs_dvd_natAbs.mpr hdvd21)
  have hveq : v1 = v2 := by
    rcases Int.natAbs_eq_natAbs_iff.mp habs with h | h
    · exact h
    · exfalso
      rw [h] at hv
      nlinarith [sq_nonneg v2]
  refine ⟨?_, hveq⟩
  apply mul_right_cancel₀ hv1ne
  rw [← hveq] at hcross
  exact hcross

/-- Canonicity of the reduced representation for denominators of equal sign:
equal cross-products give syntactically equal `RationalNumber`s. -/
theorem new_eq_new {n1 d1 n2 d2 : Int} (hd : 0 < d1 * d2)
    (hcross : n1 * d2 = n2 * d1) : RationalNumber.new n1 d1 = RationalNumber.new n2 d2 := by
  have hd1 : d1 ≠ 0 := by
    rintro rfl
    simp at hd
  have hd2 : d2 ≠ 0 := by
    rintro rfl
    simp at hd
  by_cases hn1 : n1 = 0
  · subst hn1
    have hn2 : n2 = 0 := by
      have h0 : n2 * d1 = 0 := by rw [← hcross]; ring
      rcases mul_eq_zero.mp h0 with h | h
      · exact h
      · exact absurd h hd1
    subst hn2
    rw [new_of_zero hd1, new_of_zero hd2]
  · have hn2 : n2 ≠ 0 := by
      rintro rfl
      apply hn1
      have h0 : n1 * d2 = 0 := by rw [hcross]; ring
      rcases mul_eq_zero.mp h0 with h | h
      · exact h
      · exact absurd h hd2
    have hgpos1 : 0 < Int.gcd n1 d1 := Int.gcd_pos_of_ne_zero_left d1 hn1
    have hgpos2 : 0 < Int.gcd n2 d2 := Int.gcd_pos_of_ne_zero_left d2 hn2
    have hg1pos : (0 : Int) < ((Int.gcd n1 d1 : Nat) : Int) := by exact_mod_cast hgpos1
    have hg2pos : (0 : Int) < ((Int.gcd n2 d2 : Nat) : Int) := by exact_mod_cast hgpos2
    have hu1 : ((Int.gcd n1 d1 : Nat) : Int) * (n1 / ((Int.gcd n1 d1 : Nat) : Int)) = n1 :=
      Int.mul_ediv_cancel' (by exact_mod_cast Int.gcd_dvd_left)
    have hv1 : ((Int.gcd n1 d1 : Nat) : Int) * (d1 / ((Int.gcd n1 d1 : Nat) : Int)) = d1 :=
      Int.mul_ediv_cancel' (by exact_mod_cast Int.gcd_dvd_right)
    have hu2 : ((Int.gcd n2 d2 : Nat) : Int) * (n2 / ((Int.gcd n2 d2 : Nat) : Int)) = n2 :=
      Int.mul_ediv_cancel' (by exact_mod_cast Int.gcd_dvd_left)
    have hv2 : ((Int.gcd n2 d2 : Nat) : Int) * (d2 / ((Int.gcd n2 d2 : Nat) : Int)) = d2 :=
      Int.mul_ediv_cancel' (by exact_mod_cast Int.gcd_dvd_right)
    have hcop1 : Int.gcd (n1 / ((Int.gcd n1 d1 : Nat) : Int))
        (d1 / ((Int.gcd n1 d1 : Nat) : Int)) = 1 := Int.gcd_div_gcd_div_gcd hgpos1
    have hcop2 : Int.gcd (n2 / ((Int.gcd n2 d2 : Nat) : Int))
        (d2 / ((Int.gcd n2 d2 : Nat) : Int)) = 1 := Int.gcd_div_gcd_div_gcd hgpos2
    have hvpos : 0 < (d1 / ((Int.gcd n1 d1 : Nat) : Int)) * (d2 / ((Int.gcd n2 d2 : Nat) : Int)) := by
      have hgg : (0 : Int) < ((Int.gcd n1 d1 : Nat) : Int) * ((Int.gcd n2 d2 : Nat) : Int) :=
        mul_pos hg1pos hg2pos
      have hprod : (((Int.gcd n1 d1 : Nat) : Int) * ((Int.gcd n2 d2 : Nat) : Int)) *
          ((d1 / ((Int.gcd n1 d1 : Nat) : Int)) * (d2 / ((Int.gcd n2 d2 : Nat) : Int))) = d1 * d2 := by
        calc (((Int.gcd n1 d1 : Nat) : Int) * ((Int.gcd n2 d2 : Nat) : Int)) *
            ((d1 / ((Int.gcd n1 d1 : Nat) : Int)) * (d2 / ((Int.gcd n2 d2 : Nat) : Int)))
            = (((Int.gcd n1 d1 : Nat) : Int) * (d1 / ((Int.gcd n1 d1 : Nat) : Int))) *
              (((Int.gcd n2 d2 : Nat) : Int) * (d2 / ((Int.gcd n2 d2 : Nat) : Int))) := by ring
          _ = d1 * d2 := by rw [hv1, hv2]
      nlinarith [hd, hgg, hprod]
    have hcross2 : (n1 / ((Int.gcd n1 d1 : Nat) : Int)) * (d2 / ((Int.gcd n2 d2 : Nat) : Int)) =
        (n2 / ((Int.gcd n2 d2 : Nat) : Int)) * (d1 / ((Int.gcd n1 d1 : Nat) : Int)) := by
      have hne : (((Int.gcd n1 d1 : Nat) : Int) * ((Int.gcd n2 d2 : Nat) : Int)) ≠ 0 := by
        positivity
      apply mul_left_cancel₀ hne
      calc (((Int.gcd n1 d1 : Nat) : Int) * ((Int.gcd n2 d2 : Nat) : Int)) *
          ((n1 / ((Int.gcd n1 d1 : Nat) : Int)) * (d2 / ((Int.gcd n2 d2 : Nat) : Int)))
          = (((Int.gcd n1 d1 : Nat) : Int) * (n1 / ((Int.gcd n1 d1 : Nat) : Int))) *
            (((Int.gcd n2 d2 : Nat) : Int) * (d2 / ((Int.gcd n2 d2 : Nat) : Int))) := by ring
        _ = n1 * d2 := by rw [hu1, hv2]
        _ = n2 * d1 := hcross
        _ = (((Int.gcd n2 d2 : Nat) : Int) * (n2 / ((Int.gcd n2 d2 : Nat) : Int))) *
            (((Int.gcd n1 d1 : Nat) : Int) * (d1 / ((Int.gcd n1 d1 : Nat) : Int))) := by
            rw [hu2, hv1]
        _ = (((Int.gcd n1 d1 : Nat) : Int) * ((Int.gcd n2 d2 : Nat) : Int)) *
            ((n2 / ((Int.gcd n2 d2 : Nat) : Int)) * (d1 / ((Int.gcd n1 d1 : Nat) : Int))) := by
            ring
    obtain ⟨hueq, hveq⟩ := reduced_unique hcop1 hcop2 hvpos hcross2
    rw [new_of_ne_zero hn1 hd1, new_of_ne_zero hn2 hd2, hueq, hveq]

/-! ### Collinearity and slopes -/

/-- Three points lie on one common straight line (cross-product form).  This is
the spec-side notion used to state the claims about collinear inputs. -/
def Collinear3 (p q r : Point) : Prop :=
  (q.x - p.x) * (r.y - p.y) = (q.y - p.y) * (r.x - p.x)

instance (p q r : Point) : Decidable (Collinear3 p q r) := by
  unfold Collinear3
  infer_instance

theorem collinear3_swap {p q r : Point} (h : Collinear3 p q r) : Collinear3 p r q := by
  unfold Collinear3 at h ⊢
  linear_combination -h

theorem slope_of_eq {a b : Point} (h : a.x = b.x) : slope a b = Slope.Undefined := by
  simp [slope, h]

theorem slope_of_ne {a b : Point} (h : a.x ≠ b.x) :
    slope a b = Slope.Defined (RationalNumber.new (a.y - b.y) (a.x - b.x)) := by
  simp [slope, h]

theorem line_new_of_eq {a b : Point} (h : a.x = b.x) :
    Line.new a b = ⟨Slope.Undefined, a.x⟩ := by
  unfold Line.new
  rw [slope_of_eq h]

theorem line_new_of_slope_eq {a b c : Point} (h : slope a b = slope a c) :
    Line.new a b = Line.new a c := by
  unfold Line.new
  rw [h]

/-- On a vertical line through two distinct points, every third collinear point
shares the same x-coordinate. -/
theorem vertical_of_collinear {p q r : Point} (hcol : Collinear3 p q r) (hpq : p ≠ q)
    (hx : p.x = q.x) : r.x = p.x := by
  unfold Collinear3 at hcol
  have hy : p.y ≠ q.y := by
    intro h
    apply hpq
    cases p
    cases q
    simp_all
  have h0 : q.x - p.x = 0 := by omega
  rw [h0, zero_mul] at hcol
  rcases mul_eq_zero.mp hcol.symm with h | h
  · exfalso
    apply hy
    omega
  · omega

/-- Points strictly on the same side of the reference point (in x) and
collinear with it produce equal slopes. -/
theorem slope_eq_of_collinear {a q r : Point} (hcol : Collinear3 a q r)
    (hsgn : 0 < (a.x - q.x) * (a.x - r.x)) : slope a q = slope a r := by
  have hq : a.x ≠ q.x := by
    intro h
    rw [h] at hsgn
    simp at hsgn
  have hr : a.x ≠ r.x := by
    intro h
    rw [h] at hsgn
    simp at hsgn
  rw [slope_of_ne hq, slope_of_ne hr]
  congr 1
  apply new_eq_new hsgn
  unfold Collinear3 at hcol
  linear_combination -hcol

/-- The amended same-bucket property at the level of `Line.new`: collinear
points that are NOT strictly on opposite sides of the reference point in x
span the same `Line` with it. -/
theorem line_eq_of_collinear_same_side {a b c : Point} (hcol : Collinear3 a b c)
    (hb : b ≠ a) (hc : c ≠ a) (hsgn : 0 ≤ (b.x - a.x) * (c.x - a.x)) :
    Line.new a b = Line.new a c := by
  by_cases hbx : a.x = b.x
  · have hcx : c.x = a.x := vertical_of_collinear hcol (fun h => hb h.symm) hbx
    rw [line_new_of_eq hbx, line_new_of_eq hcx.symm]
  · by_cases hcx : a.x = c.x
    · exfalso
      have := vertical_of_collinear (collinear3_swap hcol) (fun h => hc h.symm) hcx
      exact hbx this.symm
    · apply line_new_of_slope_eq
      apply slope_eq_of_collinear hcol
      have h1 : (a.x - b.x) * (a.x - c.x) = (b.x - a.x) * (c.x - a.x) := by ring
      have h2 : (b.x - a.x) * (c.x - a.x) ≠ 0 :=
        mul_ne_zero (fun h => hbx (by omega)) (fun h => hcx (by omega))
      rw [h1]
      omega

/-! ### The bucket map of `lines_containing` -/

/-- `HashMap::get` on the association-list model. -/
def lookupLine (l : Line) : List (Line × List Point) → Option (List Point)
  | [] => none
  | (l', ps) :: rest => if l' = l then some ps else lookupLine l rest

theorem lookup_updateBucket_self (l : Line) (a q : Point) (acc : List (Line × List Point)) :
    lookupLine l (updateBucket l a q acc) =
      some (((lookupLine l acc).getD [a]) ++ [q]) := by
  induction acc with
  | nil => simp [updateBucket, lookupLine]
  | cons e rest ih =>
      obtain ⟨l', ps⟩ := e
      by_cases h : l' = l
      · subst h
        simp [updateBucket, lookupLine]
      · simp [updateBucket, lookupLine, h, ih]

theorem lookup_updateBucket_other {L l : Line} (hne : L ≠ l) (a q : Point)
    (acc : List (Line × List Point)) :
    lookupLine L (updateBucket l a q acc) = lookupLine L acc := by
  have hln : ¬ (l = L) := fun hh => hne hh.symm
  induction acc with
  | nil => simp [updateBucket, lookupLine, hln]
  | cons e rest ih =>
      obtain ⟨l', ps⟩ := e
      by_cases h : l' = l
      · subst h
        simp [updateBucket, lookupLine, hln]
      · simp [updateBucket, lookupLine, h, ih]

/-- Master characterisation of the bucket fold: the bucket stored under a key
is the start value (or `[a]` for a fresh key) followed by every processed point
whose line equals the key. -/
theorem lookup_foldl (a : Point) (qs : List Point) (acc : List (Line × List Point)) (L : Line) :
    lookupLine L (qs.foldl (fun lines q => updateBucket (Line.new a q) a q lines) acc) =
      if (qs.filter (fun q => Line.new a q = L)).isEmpty
      then lookupLine L acc
      else some (((lookupLine L acc).getD [a]) ++ qs.filter (fun q => Line.new a q = L)) := by
  induction qs generalizing acc with
  | nil => simp
  | cons q qs ih =>
      rw [List.foldl_cons]
      by_cases h : Line.new a q = L
      · subst h
        rw [ih, lookup_updateBucket_self, List.filter_cons_of_pos (by simp)]
        by_cases he : qs.filter (fun p => Line.new a p = Line.new a q) = []
        · simp [he]
        · simp [he, List.append_assoc]
      · rw [ih, List.filter_cons_of_neg (by simpa using h)]
        rw [lookup_updateBucket_other (fun hh => h hh.symm)]

theorem lookup_lines_containing (a : Point) (all : List Point) (L : Line) :
    lookupLine L (lines_containing a all) =
      if (((all.filter (fun q => q ≠ a)).filter (fun q => Line.new a q = L)).isEmpty)
      then none
      else some (a :: (all.filter (fun q => q ≠ a)).filter (fun q => Line.new a q = L)) := by
  unfold lines_containing
  rw [lookup_foldl]
  simp [lookupLine]

/-! ### Entry-level facts about the bucket fold -/

theorem mem_updateBucket {l : Line} {a q : Point} :
    ∀ (acc : List (Line × List Point)) (e : Line × List Point),
      e ∈ updateBucket l a q acc →
      e = (l, [a, q]) ∨ e ∈ acc ∨ ∃ ps, (e.1, ps) ∈ acc ∧ e.2 = ps ++ [q] := by
  intro acc
  induction acc with
  | nil =>
      intro e h
      simp only [updateBucket, List.mem_singleton] at h
      exact Or.inl h
  | cons f rest ih =>
      obtain ⟨l', ps⟩ := f
      intro e h
      by_cases hl : l' = l
      · subst hl
        have h2 : e ∈ ((l', ps ++ [q]) :: rest) := by
          simpa [updateBucket] using h
        rcases List.mem_cons.mp h2 with h3 | h3
        · rw [h3]
          exact Or.inr (Or.inr ⟨ps, by simp, by simp⟩)
        · exact Or.inr (Or.inl (List.mem_cons_of_mem _ h3))
      · have h2 : e ∈ ((l', ps) :: updateBucket l a q rest) := by
          simpa [updateBucket, hl] using h
        rcases List.mem_cons.mp h2 with h3 | h3
        · rw [h3]
          exact Or.inr (Or.inl (List.mem_cons_self _ _))
        · rcases ih e h3 with h4 | h4 | ⟨ps2, hps2, he2⟩
          · exact Or.inl h4
          · exact Or.inr (Or.inl (List.mem_cons_of_mem _ h4))
          · exact Or.inr (Or.inr ⟨ps2, List.mem_cons_of_mem _ hps2, he2⟩)

theorem foldl_length_le (a : Point) (qs : List Point) (m : Nat) :
    ∀ (acc : List (Line × List Point)),
      (∀ e ∈ acc, e.2.length ≤ m + 1) →
      ∀ e ∈ qs.foldl (fun lines q => updateBucket (Line.new a q) a q lines) acc,
        e.2.length ≤ m + qs.length + 1 := by
  induction qs generalizing m with
  | nil =>
      intro acc hacc e he
      simpa using hacc e he
  | cons q qs ih =>
      intro acc hacc e he
      rw [List.foldl_cons] at he
      have hacc2 : ∀ f ∈ updateBucket (Line.new a q) a q acc, f.2.length ≤ (m + 1) + 1 := by
        intro f hf
        rcases mem_updateBucket _ _ hf with h | h | ⟨ps, hps, hf2⟩
        · subst h
          simp
        · have := hacc f h
          omega
        · have := hacc (f.1, ps) hps
          simp at this
          rw [hf2]
          simp
          omega
      have := ih (m + 1) (updateBucket (Line.new a q) a q acc) hacc2 e he
      simp at this ⊢
      omega

theorem foldl_length_ge (a : Point) (qs : List Point) :
    ∀ (acc : List (Line × List Point)),
      (∀ e ∈ acc, 1 ≤ e.2.length) →
      ∀ e ∈ qs.foldl (fun lines q => updateBucket (Line.new a q) a q lines) acc,
        1 ≤ e.2.length := by
  induction qs with
  | nil =>
      intro acc hacc e he
      simpa using hacc e he
  | cons q qs ih =>
      intro acc hacc e he
      rw [List.foldl_cons] at he
      refine ih _ ?_ e he
      intro f hf
      rcases mem_updateBucket _ _ hf with h | h | ⟨ps, hps, hf2⟩
      · subst h
        simp
      · exact hacc f h
      · rw [hf2]
        simp

/-- Every bucket of `lines_containing` holds at most one more point than the
list of candidate partners. -/
theorem lines_containing_length_le (a : Point) (all : List Point) :
    ∀ e ∈ lines_containing a all,
      e.2.length ≤ (all.filter (fun q => q ≠ a)).length + 1 := by
  intro e he
  have := foldl_length_le a (all.filter (fun q => q ≠ a)) 0 [] (by simp) e he
  omega

theorem lines_containing_length_ge (a : Point) (all : List Point) :
    ∀ e ∈ lines_containing a all, 1 ≤ e.2.length :=
  foldl_length_ge a _ [] (by simp)

/-! ### The single-line case -/

theorem foldl_single_line (a : Point) (L : Line) (qs : List Point) :
    ∀ pre : List Point, (∀ q ∈ qs, Line.new a q = L) →
      qs.foldl (fun lines q => updateBucket (Line.new a q) a q lines) [(L, pre)] =
        [(L, pre ++ qs)] := by
  induction qs with
  | nil =>
      intro pre _
      simp
  | cons q qs ih =>
      intro pre hall
      rw [List.foldl_cons]
      have hq : Line.new a q = L := hall q (List.mem_cons_self _ _)
      rw [hq]
      have hstep : updateBucket L a q [(L, pre)] = [(L, pre ++ [q])] := by
        simp [updateBucket]
      rw [hstep, ih (pre ++ [q]) (fun p hp => hall p (List.mem_cons_of_mem _ hp))]
      simp

/-- When every candidate partner spans the same line with `a`, the bucket map
degenerates to a single bucket holding `a` and all the partners. -/
theorem lines_containing_single {a q0 : Point} {rest' : List Point} (all : List Point)
    (hf : all.filter (fun q => q ≠ a) = q0 :: rest')
    (hall : ∀ q ∈ all.filter (fun q => q ≠ a), Line.new a q = Line.new a q0) :
    lines_containing a all = [(Line.new a q0, a :: all.filter (fun q => q ≠ a))] := by
  unfold lines_containing
  rw [hf, List.foldl_cons]
  have hstep : updateBucket (Line.new a q0) a q0 [] = [(Line.new a q0, [a, q0])] := by
    simp [updateBucket]
  rw [hstep, foldl_single_line a (Line.new a q0) rest' [a, q0]
    (fun p hp => hall p (by rw [hf]; exact List.mem_cons_of_mem _ hp))]
  simp

/-! ### `maxBy` -/

theorem maxBy_eq_none {α : Type} {ls : List (α × List Point)} :
    maxBy ls = none ↔ ls = [] := by
  cases ls <;> simp [maxBy]

theorem foldl_max_mem {α : Type} (rest : List (α × List Point)) :
    ∀ e0, rest.foldl (fun best f => if f.2.length < best.2.length then best else f) e0 ∈
      e0 :: rest := by
  induction rest with
  | nil =>
      intro e0
      simp
  | cons f rest ih =>
      intro e0
      rw [List.foldl_cons]
      have h := ih (if f.2.length < e0.2.length then e0 else f)
      rcases List.mem_cons.mp h with h2 | h2
      · rw [h2]
        by_cases hc : f.2.length < e0.2.length <;> simp [hc]
      · simp [List.mem_cons_of_mem, h2]

theorem foldl_max_ge {α : Type} (rest : List (α × List Point)) :
    ∀ e0, ∀ f ∈ e0 :: rest,
      f.2.length ≤
        (rest.foldl (fun best g => if g.2.length < best.2.length then best else g) e0).2.length := by
  induction rest with
  | nil =>
      intro e0 f hf
      simp at hf
      subst hf
      simp
  | cons g rest ih =>
      intro e0 f hf
      rw [List.foldl_cons]
      have step_ge0 : e0.2.length ≤ (if g.2.length < e0.2.length then e0 else g).2.length := by
        by_cases hc : g.2.length < e0.2.length <;> simp [hc] <;> omega
      have step_geg : g.2.length ≤ (if g.2.length < e0.2.length then e0 else g).2.length := by
        by_cases hc : g.2.length < e0.2.length <;> simp [hc] <;> omega
      rcases List.mem_cons.mp hf with h2 | h2
      · subst h2
        calc f.2.length ≤ (if g.2.length < f.2.length then f else g).2.length := step_ge0
          _ ≤ _ := ih _ _ (List.mem_cons_self _ _)
      · rcases List.mem_cons.mp h2 with h3 | h3
        · subst h3
          calc f.2.length ≤ (if f.2.length < e0.2.length then e0 else f).2.length := step_geg
            _ ≤ _ := ih _ _ (List.mem_cons_self _ _)
        · exact ih _ _ (List.mem_cons_of_mem _ h3)

theorem maxBy_mem {α : Type} {ls : List (α × List Point)} {e : α × List Point}
    (h : maxBy ls = some e) : e ∈ ls := by
  cases ls with
  | nil => simp [maxBy] at h
  | cons e0 rest =>
      simp only [maxBy, Option.some_inj] at h
      rw [← h]
      exact foldl_max_mem rest e0

theorem maxBy_ge {α : Type} {ls : List (α × List Point)} {e : α × List Point}
    (h : maxBy ls = some e) : ∀ f ∈ ls, f.2.length ≤ e.2.length := by
  cases ls with
  | nil => simp [maxBy] at h
  | cons e0 rest =>
      intro f hf
      simp only [maxBy, Option.some_inj] at h
      rw [← h]
      exact foldl_max_ge rest e0 f hf

/-! ### List helpers -/

theorem length_filter_ne_lt {p : Point} :
    ∀ {l : List Point}, p ∈ l → (l.filter (fun q => q ≠ p)).length < l.length := by
  intro l hp
  induction l with
  | nil => simp at hp
  | cons q t ih =>
      by_cases hq : q = p
      · subst hq
        rw [List.filter_cons_of_neg (by simp), List.length_cons]
        have h1 := List.length_filter_le (fun x => x ≠ q) t
        omega
      · rcases List.mem_cons.mp hp with h | h
        · exact absurd h.symm hq
        · have h1 := ih h
          rw [List.filter_cons_of_pos (by simpa using hq), List.length_cons, List.length_cons]
          omega

theorem length_filter_ne_of_nodup {p : Point} :
    ∀ {l : List Point}, l.Nodup → p ∈ l →
      (l.filter (fun q => q ≠ p)).length + 1 = l.length := by
  intro l hnd hp
  induction l with
  | nil => simp at hp
  | cons q t ih =>
      rcases List.nodup_cons.mp hnd with ⟨hqt, hndt⟩
      by_cases hq : q = p
      · subst hq
        rw [List.filter_cons_of_neg (by simp)]
        have hfilter : t.filter (fun x => x ≠ q) = t := by
          apply List.filter_eq_self.mpr
          intro x hx
          simp
          intro hxq
          exact hqt (hxq ▸ hx)
        rw [hfilter]
        simp
      · rcases List.mem_cons.mp hp with h | h
        · exact absurd h.symm hq
        · have h1 := ih hndt h
          rw [List.filter_cons_of_pos (by simpa using hq), List.length_cons, List.length_cons]
          omega

theorem exists_min_x : ∀ (l : List Point), l ≠ [] → ∃ a ∈ l, ∀ q ∈ l, a.x ≤ q.x := by
  intro l hl
  induction l with
  | nil => exact absurd rfl hl
  | cons p t ih =>
      cases t with
      | nil =>
          refine ⟨p, List.mem_cons_self _ _, ?_⟩
          intro q hq
          simp at hq
          rw [hq]
      | cons r s =>
          obtain ⟨a, ha, hmin⟩ := ih (by simp)
          by_cases hpa : p.x ≤ a.x
          · refine ⟨p, List.mem_cons_self _ _, ?_⟩
            intro q hq
            rcases List.mem_cons.mp hq with h | h
            · rw [h]
            · exact le_trans hpa (hmin q h)
          · refine ⟨a, List.mem_cons_of_mem _ ha, ?_⟩
            intro q hq
            rcases List.mem_cons.mp hq with h | h
            · rw [h]
              omega
            · exact hmin q h

/-! ### `collinear_groups` -/

theorem mem_insertReplace_self (k : Point) (v : List Point) :
    ∀ m, (k, v) ∈ insertReplace k v m := by
  intro m
  induction m with
  | nil => simp [insertReplace]
  | cons e rest ih =>
      obtain ⟨k', v'⟩ := e
      by_cases h : k' = k
      · simp [insertReplace, h]
      · simp only [insertReplace, if_neg h]
        exact List.mem_cons_of_mem _ ih

theorem mem_insertReplace_of_ne {p k : Point} {w v : List Point} (hne : p ≠ k) :
    ∀ {m}, (p, w) ∈ m → (p, w) ∈ insertReplace k v m := by
  intro m hm
  induction m with
  | nil => simp at hm
  | cons e rest ih =>
      obtain ⟨k', v'⟩ := e
      rcases List.mem_cons.mp hm with h | h
      · have hk : k' ≠ k := by
          intro hh
          apply hne
          have : p = k' := by
            have := congrArg Prod.fst h
            simpa using this
          rw [this, hh]
        simp only [insertReplace, if_neg hk]
        exact h ▸ List.mem_cons_self _ _
      · by_cases hk : k' = k
        · simp only [insertReplace, if_pos hk]
          exact List.mem_cons_of_mem _ h
        · simp only [insertReplace, if_neg hk]
          exact List.mem_cons_of_mem _ (ih h)

theorem mem_insertReplace {k : Point} {v : List Point} :
    ∀ {m} {e : Point × List Point}, e ∈ insertReplace k v m → e = (k, v) ∨ e ∈ m := by
  intro m
  induction m with
  | nil =>
      intro e he
      simp [insertReplace] at he
      exact Or.inl he
  | cons f rest ih =>
      obtain ⟨k', v'⟩ := f
      intro e he
      by_cases hk : k' = k
      · simp only [insertReplace, if_pos hk] at he
        rcases List.mem_cons.mp he with h | h
        · exact Or.inl h
        · exact Or.inr (List.mem_cons_of_mem _ h)
      · simp only [insertReplace, if_neg hk] at he
        rcases List.mem_cons.mp he with h | h
        · exact Or.inr (h ▸ List.mem_cons_self _ _)
        · rcases ih h with h2 | h2
          · exact Or.inl h2
          · exact Or.inr (List.mem_cons_of_mem _ h2)

theorem insertReplace_ne_nil (k : Point) (v : List Point) :
    ∀ m, insertReplace k v m ≠ [] := by
  intro m
  cases m with
  | nil => simp [insertReplace]
  | cons e rest =>
      obtain ⟨k', v'⟩ := e
      by_cases h : k' = k <;> simp [insertReplace, h]

theorem foldl_insertReplace_sound (f : Point → List Point) (S : Point → Prop) :
    ∀ (qs : List Point) (acc : List (Point × List Point)),
      (∀ q ∈ qs, S q) →
      (∀ e ∈ acc, S e.1 ∧ e.2 = f e.1) →
      ∀ e ∈ qs.foldl (fun m point => insertReplace point (f point) m) acc,
        S e.1 ∧ e.2 = f e.1 := by
  intro qs
  induction qs with
  | nil =>
      intro acc _ hacc e he
      exact hacc e he
  | cons q qs ih =>
      intro acc hS hacc e he
      rw [List.foldl_cons] at he
      refine ih _ (fun p hp => hS p (List.mem_cons_of_mem _ hp)) ?_ e he
      intro g hg
      rcases mem_insertReplace hg with h | h
      · rw [h]
        exact ⟨hS q (List.mem_cons_self _ _), rfl⟩
      · exact hacc g h

theorem collinear_groups_sound {points : List Point} :
    ∀ e ∈ collinear_groups points, e.1 ∈ points ∧ e.2 = collinear_group e.1 points := by
  intro e he
  exact foldl_insertReplace_sound (fun p => collinear_group p points) (fun p => p ∈ points)
    points [] (fun q hq => hq) (by simp) e he

theorem foldl_insertReplace_complete (f : Point → List Point) (p : Point) :
    ∀ (qs : List Point) (acc : List (Point × List Point)),
      (p ∈ qs ∨ (p, f p) ∈ acc) →
      (p, f p) ∈ qs.foldl (fun m point => insertReplace point (f point) m) acc := by
  intro qs
  induction qs with
  | nil =>
      intro acc hp
      rcases hp with h | h
      · simp at h
      · simpa using h
  | cons q qs ih =>
      intro acc hp
      rw [List.foldl_cons]
      by_cases hq : p = q
      · subst hq
        exact ih _ (Or.inr (mem_insertReplace_self p (f p) acc))
      · rcases hp with h | h
        · rcases List.mem_cons.mp h with h2 | h2
          · exact absurd h2 hq
          · exact ih _ (Or.inl h2)
        · exact ih _ (Or.inr (mem_insertReplace_of_ne hq h))

theorem collinear_groups_complete {points : List Point} {p : Point} (hp : p ∈ points) :
    (p, collinear_group p points) ∈ collinear_groups points :=
  foldl_insertReplace_complete (fun q => collinear_group q points) p points [] (Or.inl hp)

theorem foldl_insertReplace_ne_nil (f : Point → List Point) :
    ∀ (qs : List Point) (acc : List (Point × List Point)), (acc ≠ [] ∨ qs ≠ []) →
      qs.foldl (fun m point => insertReplace point (f point) m) acc ≠ [] := by
  intro qs
  induction qs with
  | nil =>
      intro acc h
      rcases h with h | h
      · simpa using h
      · exact absurd rfl h
  | cons q qs ih =>
      intro acc _
      rw [List.foldl_cons]
      exact ih _ (Or.inl (insertReplace_ne_nil _ _ _))

theorem collinear_groups_ne_nil {points : List Point} (h : points ≠ []) :
    collinear_groups points ≠ [] :=
  foldl_insertReplace_ne_nil (fun q => collinear_group q points) points [] (Or.inr h)

/-! ### Bounds on `collinear_group` -/

theorem collinear_group_length_ge (point : Point) (all : List Point) :
    1 ≤ (collinear_group point all).length := by
  unfold collinear_group
  cases hm : maxBy (lines_containing point all) with
  | none => simp
  | some e =>
      have := lines_containing_length_ge point all e (maxBy_mem hm)
      simpa using this

theorem collinear_group_length_le {point : Point} {all : List Point} (hp : point ∈ all) :
    (collinear_group point all).length ≤ all.length := by
  unfold collinear_group
  cases hm : maxBy (lines_containing point all) with
  | none =>
      have := List.length_pos.mpr (List.ne_nil_of_mem hp)
      simpa using this
  | some e =>
      have h1 := lines_containing_length_le point all e (maxBy_mem hm)
      have h2 := length_filter_ne_lt hp
      simp only []
      omega

/-- In the degenerate single-line situation the best group is the reference
point followed by all partners. -/
theorem collinear_group_single {a q0 : Point} {rest' : List Point} (all : List Point)
    (hf : all.filter (fun q => q ≠ a) = q0 :: rest')
    (hall : ∀ q ∈ all.filter (fun q => q ≠ a), Line.new a q = Line.new a q0) :
    collinear_group a all = a :: all.filter (fun q => q ≠ a) := by
  unfold collinear_group
  rw [lines_containing_single all hf hall]
  simp [maxBy]

theorem collinear_group_of_no_partner {a : Point} {all : List Point}
    (hf : all.filter (fun q => q ≠ a) = []) : collinear_group a all = [a] := by
  unfold collinear_group
  unfold lines_containing
  rw [hf]
  simp [maxBy]

/-! ### The maximiser over `collinear_groups` -/

theorem maxBy_collinear_groups {points : List Point} (hne : points ≠ []) :
    ∃ e, maxBy (collinear_groups points) = some e ∧ e.1 ∈ points ∧
      e.2 = collinear_group e.1 points ∧
      ∀ p ∈ points, (collinear_group p points).length ≤ e.2.length := by
  cases hm : maxBy (collinear_groups points) with
  | none => exact absurd (maxBy_eq_none.mp hm) (collinear_groups_ne_nil hne)
  | some e =>
      obtain ⟨h1, h2⟩ := collinear_groups_sound e (maxBy_mem hm)
      refine ⟨e, rfl, h1, h2, ?_⟩
      intro p hp
      exact maxBy_ge hm _ (collinear_groups_complete hp)

/-! ### A reference point seeing all points on one bucket -/

theorem collinear_group_length_of_reference {points : List Point} (hnd : points.Nodup)
    {a : Point} (ha : a ∈ points)
    (hsame : ∀ q ∈ points.filter (fun q => q ≠ a), ∀ r ∈ points.filter (fun q => q ≠ a),
      Line.new a q = Line.new a r) :
    (collinear_group a points).length = points.length := by
  cases hf : points.filter (fun q => q ≠ a) with
  | nil =>
      rw [collinear_group_of_no_partner hf]
      have := length_filter_ne_of_nodup hnd ha
      rw [hf] at this
      simpa using this
  | cons q0 rest' =>
      have hall : ∀ q ∈ points.filter (fun q => q ≠ a), Line.new a q = Line.new a q0 := by
        intro q hq
        exact hsame q hq q0 (by rw [hf]; exact List.mem_cons_self _ _)
      rw [collinear_group_single points hf hall]
      have := length_filter_ne_of_nodup hnd ha
      simpa using this

/-- For a nonempty, duplicate-free, totally collinear point list there is a
reference point whose grouping pass collects the whole list. -/
theorem exists_full_reference {points : List Point} (hne : points ≠ []) (hnd : points.Nodup)
    (hcol : ∀ p ∈ points, ∀ q ∈ points, ∀ r ∈ points, Collinear3 p q r) :
    ∃ a ∈ points, (collinear_group a points).length = points.length := by
  by_cases hvert : ∀ p ∈ points, ∀ q ∈ points, p.x = q.x
  · obtain ⟨a, ha⟩ := List.exists_mem_of_ne_nil points hne
    refine ⟨a, ha, collinear_group_length_of_reference hnd ha ?_⟩
    intro q hq r hr
    have hq2 := List.mem_filter.mp hq
    have hr2 := List.mem_filter.mp hr
    have hqx : a.x = q.x := hvert a ha q hq2.1
    have hrx : a.x = r.x := hvert a ha r hr2.1
    rw [line_new_of_eq hqx, line_new_of_eq hrx]
  · push_neg at hvert
    obtain ⟨p0, hp0, q0, hq0, hpq0⟩ := hvert
    have hxinj : ∀ p ∈ points, ∀ q ∈ points, p ≠ q → p.x ≠ q.x := by
      intro p hp q hq hne2 hxeq
      have h1 : p0.x = p.x :=
        vertical_of_collinear (hcol p hp q hq p0 hp0) hne2 hxeq
      have h2 : q0.x = p.x :=
        vertical_of_collinear (hcol p hp q hq q0 hq0) hne2 hxeq
      exact hpq0 (by omega)
    obtain ⟨a, ha, hmin⟩ := exists_min_x points hne
    refine ⟨a, ha, collinear_group_length_of_reference hnd ha ?_⟩
    intro q hq r hr
    have hq2 := List.mem_filter.mp hq
    have hr2 := List.mem_filter.mp hr
    have hqa : q ≠ a := by simpa using hq2.2
    have hra : r ≠ a := by simpa using hr2.2
    have hqlt : a.x < q.x := by
      have h1 := hmin q hq2.1
      have h2 := hxinj a ha q hq2.1 (fun h => hqa h.symm)
      omega
    have hrlt : a.x < r.x := by
      have h1 := hmin r hr2.1
      have h2 := hxinj a ha r hr2.1 (fun h => hra h.symm)
      omega
    exact line_eq_of_collinear_same_side (hcol a ha q hq2.1 r hr2.1) hqa hra
      (by nlinarith)

/-! ### Unfolding helper for the top level -/

theorem max_collinear_points_eq (raw : List (Int × Int)) :
    max_collinear_points raw =
      match maxBy (collinear_groups (raw.map (fun p => Point.mk p.1 p.2))) with
      | some e => some e.2.length
      | none => none := rfl

theorem map_point_injective :
    Function.Injective (fun p : Int × Int => Point.mk p.1 p.2) := by
  intro p q h
  cases p
  cases q
  simpa [Point.mk.injEq, Prod.ext_iff] using h

/-! ### Helper facts for the amended C2 -/

theorem line_new_of_ne {a b : Point} (h : a.x ≠ b.x) :
    Line.new a b =
      ⟨Slope.Defined (RationalNumber.new (a.y - b.y) (a.x - b.x)),
        a.y - ((RationalNumber.new (a.y - b.y) (a.x - b.x)).numerator * a.x).tdiv
          (RationalNumber.new (a.y - b.y) (a.x - b.x)).denominator⟩ := by
  unfold Line.new
  rw [slope_of_ne h]

theorem new_numerator_ne_zero {n d : Int} (hn : n ≠ 0) (hd : d ≠ 0) :
    (RationalNumber.new n d).numerator ≠ 0 := by
  rw [new_of_ne_zero hn hd]
  intro h
  simp only [] at h
  have hg : ((Int.gcd n d : Nat) : Int) ∣ n := by exact_mod_cast Int.gcd_dvd_left
  have h2 := Int.ediv_mul_cancel hg
  rw [h, zero_mul] at h2
  exact hn h2.symm

theorem new_neg_neg {n d : Int} (hn : n ≠ 0) (hd : d ≠ 0) :
    RationalNumber.new (-n) (-d) =
      ⟨-(RationalNumber.new n d).numerator, -(RationalNumber.new n d).denominator⟩ := by
  have hn2 : -n ≠ 0 := by omega
  have hd2 : -d ≠ 0 := by omega
  rw [new_of_ne_zero hn hd, new_of_ne_zero hn2 hd2]
  have hg : Int.gcd (-n) (-d) = Int.gcd n d := by simp [Int.gcd]
  rw [hg]
  have h1 : (-n) / ((Int.gcd n d : Nat) : Int) = -(n / ((Int.gcd n d : Nat) : Int)) :=
    Int.neg_ediv_of_dvd (by exact_mod_cast Int.gcd_dvd_left)
  have h2 : (-d) / ((Int.gcd n d : Nat) : Int) = -(d / ((Int.gcd n d : Nat) : Int)) :=
    Int.neg_ediv_of_dvd (by exact_mod_cast Int.gcd_dvd_right)
  rw [h1, h2]

/-- Opposite-sided partners on a non-horizontal line get strictly
opposite-signed reduced fractions, hence different slopes and lines. -/
theorem line_ne_of_opposite_side {a b c : Point} (hcol : Collinear3 a b c)
    (hsgn : (b.x - a.x) * (c.x - a.x) < 0) (hny : a.y ≠ b.y) :
    Line.new a b ≠ Line.new a c := by
  have hbx : a.x ≠ b.x := by
    intro h
    rw [h] at hsgn
    simp at hsgn
  have hcx : a.x ≠ c.x := by
    intro h
    rw [h] at hsgn
    simp at hsgn
  have hd1 : a.x - b.x ≠ 0 := fun h => hbx (by omega)
  have hd2 : a.x - c.x ≠ 0 := fun h => hcx (by omega)
  have hn1 : a.y - b.y ≠ 0 := fun h => hny (by omega)
  have hcross : (a.y - b.y) * (a.x - c.x) = (a.y - c.y) * (a.x - b.x) := by
    unfold Collinear3 at hcol
    linear_combination -hcol
  have hf2 : RationalNumber.new (a.y - c.y) (a.x - c.x) =
      RationalNumber.new (-(a.y - b.y)) (-(a.x - b.x)) := by
    apply new_eq_new
    · have h1 : (a.x - b.x) * (a.x - c.x) < 0 := by nlinarith
      nlinarith
    · linear_combination hcross
  have hneg : RationalNumber.new (-(a.y - b.y)) (-(a.x - b.x)) =
      ⟨-(RationalNumber.new (a.y - b.y) (a.x - b.x)).numerator,
        -(RationalNumber.new (a.y - b.y) (a.x - b.x)).denominator⟩ :=
    new_neg_neg hn1 hd1
  intro heq
  rw [line_new_of_ne hbx, line_new_of_ne hcx] at heq
  have hs := congrArg Line.slope heq
  simp only [] at hs
  have hf : RationalNumber.new (a.y - b.y) (a.x - b.x) =
      RationalNumber.new (a.y - c.y) (a.x - c.x) := by
    injection hs
  rw [hf2, hneg] at hf
  have hnum := congrArg RationalNumber.numerator hf
  simp only [] at hnum
  exact new_numerator_ne_zero hn1 hd1 (by omega)

/-! ### The claims -/

/-- C1: for every input list of pairwise-distinct points that all lie on one
common straight line (with at least one point), `max_collinear_points` returns
the count of points in the input. -/
theorem claim_C1_all_collinear_returns_count (raw : List (Int × Int)) (hne : raw ≠ [])
    (hnd : raw.Nodup)
    (hcol : ∀ p ∈ raw, ∀ q ∈ raw, ∀ r ∈ raw,
      Collinear3 ⟨p.1, p.2⟩ ⟨q.1, q.2⟩ ⟨r.1, r.2⟩) :
    max_collinear_points raw = some raw.length := by
  have hne' : raw.map (fun p => Point.mk p.1 p.2) ≠ [] := by simpa using hne
  have hnd' : (raw.map (fun p => Point.mk p.1 p.2)).Nodup :=
    List.Nodup.map map_point_injective hnd
  have hcol' : ∀ p ∈ raw.map (fun p => Point.mk p.1 p.2),
      ∀ q ∈ raw.map (fun p => Point.mk p.1 p.2),
      ∀ r ∈ raw.map (fun p => Point.mk p.1 p.2), Collinear3 p q r := by
    intro p hp q hq r hr
    rcases List.mem_map.mp hp with ⟨p', hp', rfl⟩
    rcases List.mem_map.mp hq with ⟨q', hq', rfl⟩
    rcases List.mem_map.mp hr with ⟨r', hr', rfl⟩
    exact hcol p' hp' q' hq' r' hr'
  obtain ⟨a, ha, hlen⟩ := exists_full_reference hne' hnd' hcol'
  obtain ⟨e, hm, he1, he2, hmax⟩ := maxBy_collinear_groups hne'
  have hle : e.2.length ≤ (raw.map (fun p => Point.mk p.1 p.2)).length := by
    rw [he2]
    exact collinear_group_length_le he1
  have hge : (raw.map (fun p => Point.mk p.1 p.2)).length ≤ e.2.length := by
    rw [← hlen]
    exact hmax a ha
  rw [max_collinear_points_eq, hm]
  have hlen2 : e.2.length = raw.length := by
    rw [List.length_map] at hle hge
    omega
  show some e.2.length = some raw.length
  rw [hlen2]

/-- Witness for C1 at the collinear input `[(0,0),(1,1),(2,2)]`. -/
theorem claim_C1_witness : max_collinear_points [(0, 0), (1, 1), (2, 2)] = some 3 :=
  claim_C1_all_collinear_returns_count [(0, 0), (1, 1), (2, 2)]
    (by decide) (by decide) (by decide)

/-- C2 fails as stated: the points `(1,1)` and `(-1,-1)` are distinct from the
reference `(0,0)` and collinear with it, yet the two constructed lines differ
(the reduced slope fractions are `(-1)/(-1)` and `1/1`). -/
theorem claim_C2_counterexample :
    Collinear3 ⟨0, 0⟩ ⟨1, 1⟩ ⟨-1, -1⟩ ∧
    (⟨1, 1⟩ : Point) ≠ ⟨0, 0⟩ ∧ (⟨-1, -1⟩ : Point) ≠ ⟨0, 0⟩ ∧
    (⟨1, 1⟩ : Point) ≠ ⟨-1, -1⟩ ∧
    Line.new ⟨0, 0⟩ ⟨1, 1⟩ ≠ Line.new ⟨0, 0⟩ ⟨-1, -1⟩ := by
  refine ⟨by decide, by decide, by decide, by decide, ?_⟩
  simp [Line.new, slope, RationalNumber.new, gcd_eval]

/-- C2 (amended): with a fixed reference point `a` and two other points `b`,
`c` collinear with it and distinct from it, `Line::new(a, b)` equals
`Line::new(a, c)` if and only if `b` and `c` do not lie strictly on opposite
sides of `a` in x, or the common line is horizontal (both reduced slopes are
then `0/1`); and whenever the lines are equal, `b` and `c` land in the same
bucket of `lines_containing(a, all_points)`. -/
theorem claim_C2_amended {a b c : Point} {all_points : List Point}
    (hcol : Collinear3 a b c) (hb : b ≠ a) (hc : c ≠ a)
    (hball : b ∈ all_points) (hcall : c ∈ all_points) :
    (Line.new a b = Line.new a c ↔
      (0 ≤ (b.x - a.x) * (c.x - a.x) ∨ a.y = b.y)) ∧
    (Line.new a b = Line.new a c →
      ∃ ps, lookupLine (Line.new a b) (lines_containing a all_points) = some ps ∧
        b ∈ ps ∧ c ∈ ps) := by
  constructor
  · constructor
    · intro heq
      by_contra hnot
      push_neg at hnot
      obtain ⟨hsgn, hny⟩ := hnot
      have hlt : (b.x - a.x) * (c.x - a.x) < 0 := by omega
      exact line_ne_of_opposite_side hcol hlt hny heq
    · rintro (hsgn | hhor)
      · exact line_eq_of_collinear_same_side hcol hb hc hsgn
      · have hbx : a.x ≠ b.x := by
          intro h
          apply hb
          cases a
          cases b
          simp_all
        have hcy : c.y = a.y := by
          unfold Collinear3 at hcol
          have h1 : b.y - a.y = 0 := by omega
          rw [h1, zero_mul] at hcol
          rcases mul_eq_zero.mp hcol with h | h
          · exact absurd (by omega : b.x = a.x) (fun hh => hbx (by omega))
          · omega
        have hcx : a.x ≠ c.x := by
          intro h
          apply hc
          cases a
          cases c
          simp_all
        rw [line_new_of_ne hbx, line_new_of_ne hcx]
        have h1 : a.y - b.y = 0 := by omega
        have h2 : a.y - c.y = 0 := by omega
        rw [h1, h2]
        have hdb : a.x - b.x ≠ 0 := fun h => hbx (by omega)
        have hdc : a.x - c.x ≠ 0 := fun h => hcx (by omega)
        rw [new_of_zero hdb, new_of_zero hdc]
  · intro hline
    rw [lookup_lines_containing]
    have hbf : b ∈ (all_points.filter (fun q => q ≠ a)).filter
        (fun q => Line.new a q = Line.new a b) :=
      List.mem_filter.mpr ⟨List.mem_filter.mpr ⟨hball, by simpa using hb⟩, by simp⟩
    have hcf : c ∈ (all_points.filter (fun q => q ≠ a)).filter
        (fun q => Line.new a q = Line.new a b) :=
      List.mem_filter.mpr ⟨List.mem_filter.mpr ⟨hcall, by simpa using hc⟩,
        by simp [hline]⟩
    rw [if_neg (by simpa [List.isEmpty_iff] using List.ne_nil_of_mem hbf)]
    exact ⟨_, rfl, List.mem_cons_of_mem _ hbf, List.mem_cons_of_mem _ hcf⟩

/-- Witness for the amended C2 at the horizontal opposite-side instance
`a = (0,0)`, `b = (1,0)`, `c = (-1,0)`, where the lines are equal. -/
theorem claim_C2_witness :
    ((Line.new ⟨0, 0⟩ ⟨1, 0⟩ = Line.new ⟨0, 0⟩ ⟨-1, 0⟩ ↔
        (0 ≤ ((⟨1, 0⟩ : Point).x - (⟨0, 0⟩ : Point).x) *
            ((⟨-1, 0⟩ : Point).x - (⟨0, 0⟩ : Point).x) ∨
          (⟨0, 0⟩ : Point).y = (⟨1, 0⟩ : Point).y)) ∧
      (Line.new ⟨0, 0⟩ ⟨1, 0⟩ = Line.new ⟨0, 0⟩ ⟨-1, 0⟩ →
        ∃ ps, lookupLine (Line.new ⟨0, 0⟩ ⟨1, 0⟩)
            (lines_containing ⟨0, 0⟩ [⟨0, 0⟩, ⟨1, 0⟩, ⟨-1, 0⟩]) = some ps ∧
          (⟨1, 0⟩ : Point) ∈ ps ∧ (⟨-1, 0⟩ : Point) ∈ ps)) :=
  claim_C2_amended (by decide) (by decide) (by decide) (by decide) (by decide)

/-- C3 fails as stated: for `a = (1,0)`, `b = (4,2)` the reduced slope fraction
is `(-2)/(-3)` and its denominator does not divide `numerator * a.x`, so the
truncating division in `Line::new` is inexact there. -/
theorem claim_C3_counterexample :
    (Point.mk 1 0).x ≠ (Point.mk 4 2).x ∧
    ¬ ((RationalNumber.new ((Point.mk 1 0).y - (Point.mk 4 2).y)
          ((Point.mk 1 0).x - (Point.mk 4 2).x)).denominator ∣
        (RationalNumber.new ((Point.mk 1 0).y - (Point.mk 4 2).y)
          ((Point.mk 1 0).x - (Point.mk 4 2).x)).numerator * (Point.mk 1 0).x) := by
  refine ⟨by decide, ?_⟩
  simp only [RationalNumber.new, gcd_eval]
  norm_num

/-- C3 (amended): the truncating division in `Line::new(a, b)` is exact iff
`a.x - b.x` divides `(a.y - b.y) * a.x`; this holds for some inputs (e.g. when
`a.x = 0`) but not for all. -/
theorem claim_C3_amended {a b : Point} (hx : a.x ≠ b.x) :
    ((RationalNumber.new (a.y - b.y) (a.x - b.x)).denominator ∣
      (RationalNumber.new (a.y - b.y) (a.x - b.x)).numerator * a.x) ↔
    ((a.x - b.x) ∣ (a.y - b.y) * a.x) := by
  have hd : a.x - b.x ≠ 0 := fun h => hx (by omega)
  by_cases hn : a.y - b.y = 0
  · rw [hn, new_of_zero hd]
    simp
  · rw [new_of_ne_zero hn hd]
    simp only []
    have hgpos : 0 < Int.gcd (a.y - b.y) (a.x - b.x) :=
      Int.gcd_pos_of_ne_zero_left (a.x - b.x) hn
    have hgne : ((Int.gcd (a.y - b.y) (a.x - b.x) : Nat) : Int) ≠ 0 := by
      have : (0 : Int) < ((Int.gcd (a.y - b.y) (a.x - b.x) : Nat) : Int) := by
        exact_mod_cast hgpos
      omega
    have hun : ((Int.gcd (a.y - b.y) (a.x - b.x) : Nat) : Int) *
        ((a.y - b.y) / ((Int.gcd (a.y - b.y) (a.x - b.x) : Nat) : Int)) = a.y - b.y :=
      Int.mul_ediv_cancel' (by exact_mod_cast Int.gcd_dvd_left)
    have hvd : ((Int.gcd (a.y - b.y) (a.x - b.x) : Nat) : Int) *
        ((a.x - b.x) / ((Int.gcd (a.y - b.y) (a.x - b.x) : Nat) : Int)) = a.x - b.x :=
      Int.mul_ediv_cancel' (by exact_mod_cast Int.gcd_dvd_right)
    constructor
    · intro h
      obtain ⟨k, hk⟩ := h
      refine ⟨k, ?_⟩
      calc (a.y - b.y) * a.x
          = ((Int.gcd (a.y - b.y) (a.x - b.x) : Nat) : Int) *
            (((a.y - b.y) / ((Int.gcd (a.y - b.y) (a.x - b.x) : Nat) : Int)) * a.x) := by
            rw [← mul_assoc, hun]
        _ = ((Int.gcd (a.y - b.y) (a.x - b.x) : Nat) : Int) *
            (((a.x - b.x) / ((Int.gcd (a.y - b.y) (a.x - b.x) : Nat) : Int)) * k) := by
            rw [hk]
        _ = (a.x - b.x) * k := by rw [← mul_assoc, hvd]
    · intro h
      obtain ⟨k, hk⟩ := h
      refine ⟨k, ?_⟩
      apply mul_left_cancel₀ hgne
      calc ((Int.gcd (a.y - b.y) (a.x - b.x) : Nat) : Int) *
          (((a.y - b.y) / ((Int.gcd (a.y - b.y) (a.x - b.x) : Nat) : Int)) * a.x)
          = (a.y - b.y) * a.x := by rw [← mul_assoc, hun]
        _ = (a.x - b.x) * k := hk
        _ = ((Int.gcd (a.y - b.y) (a.x - b.x) : Nat) : Int) *
            (((a.x - b.x) / ((Int.gcd (a.y - b.y) (a.x - b.x) : Nat) : Int)) * k) := by
            rw [← mul_assoc, hvd]

/-- Witness for the amended C3 at `a = (0,3)`, `b = (1,5)`. -/
theorem claim_C3_witness :
    ((RationalNumber.new ((3 : Int) - 5) ((0 : Int) - 1)).denominator ∣
      (RationalNumber.new ((3 : Int) - 5) ((0 : Int) - 1)).numerator * 0) ↔
    (((0 : Int) - 1) ∣ ((3 : Int) - 5) * 0) :=
  @claim_C3_amended (Point.mk 0 3) (Point.mk 1 5) (by decide)

/-- C4: `max_collinear_points` applied to
`[(1,1),(3,2),(5,3),(4,1),(2,3),(1,4)]` returns 4. -/
theorem claim_C4_example_returns_four :
    max_collinear_points [(1, 1), (3, 2), (5, 3), (4, 1), (2, 3), (1, 4)] = some 4 := by
  simp [max_collinear_points, collinear_groups, collinear_group, lines_containing,
    updateBucket, insertReplace, maxBy, Line.new, slope, RationalNumber.new, gcd_eval]

/-- C5: for every non-empty input, `max_collinear_points` returns a value
between 1 and the length of the input. -/
theorem claim_C5_bounds (raw : List (Int × Int)) (hne : raw ≠ []) :
    ∃ k, max_collinear_points raw = some k ∧ 1 ≤ k ∧ k ≤ raw.length := by
  have hne' : raw.map (fun p => Point.mk p.1 p.2) ≠ [] := by simpa using hne
  obtain ⟨e, hm, he1, he2, _⟩ := maxBy_collinear_groups hne'
  refine ⟨e.2.length, ?_, ?_, ?_⟩
  · rw [max_collinear_points_eq, hm]
  · rw [he2]
    exact collinear_group_length_ge _ _
  · have h1 := collinear_group_length_le he1
    rw [he2]
    rw [List.length_map] at h1
    exact h1

/-- Witness for C5 at the input `[(0,0),(7,3)]`. -/
theorem claim_C5_witness :
    ∃ k, max_collinear_points [(0, 0), (7, 3)] = some k ∧ 1 ≤ k ∧
      k ≤ ([((0 : Int), (0 : Int)), (7, 3)]).length :=
  claim_C5_bounds [(0, 0), (7, 3)] (by decide)

/-- C6: on a non-empty input whose points all have identical coordinates the
result is 1, and `collinear_group` returns `[point]` whenever no member of
`all_points` differs from `point`. -/
theorem claim_C6_identical_points :
    (∀ raw : List (Int × Int), raw ≠ [] → (∀ p ∈ raw, ∀ q ∈ raw, p = q) →
      max_collinear_points raw = some 1) ∧
    (∀ (point : Point) (all_points : List Point), (∀ q ∈ all_points, q = point) →
      collinear_group point all_points = [point]) := by
  have part2 : ∀ (point : Point) (all_points : List Point),
      (∀ q ∈ all_points, q = point) → collinear_group point all_points = [point] := by
    intro point all hall
    apply collinear_group_of_no_partner
    apply List.filter_eq_nil_iff.mpr
    intro q hq
    simp [hall q hq]
  refine ⟨?_, part2⟩
  intro raw hne hall
  have hne' : raw.map (fun p => Point.mk p.1 p.2) ≠ [] := by simpa using hne
  have hallpts : ∀ p ∈ raw.map (fun p => Point.mk p.1 p.2),
      ∀ q ∈ raw.map (fun p => Point.mk p.1 p.2), p = q := by
    intro p hp q hq
    rcases List.mem_map.mp hp with ⟨p', hp', rfl⟩
    rcases List.mem_map.mp hq with ⟨q', hq', rfl⟩
    rw [hall p' hp' q' hq']
  obtain ⟨e, hm, he1, he2, _⟩ := maxBy_collinear_groups hne'
  have hval : e.2 = [e.1] := by
    rw [he2]
    exact part2 e.1 _ (fun q hq => hallpts q hq e.1 he1)
  rw [max_collinear_points_eq, hm]
  show some e.2.length = some 1
  rw [hval]
  rfl

/-- Witness for C6: a duplicated single coordinate and a trivial
`collinear_group` call. -/
theorem claim_C6_witness :
    max_collinear_points [(2, 2), (2, 2)] = some 1 ∧
    collinear_group ⟨5, 5⟩ [⟨5, 5⟩, ⟨5, 5⟩] = [⟨5, 5⟩] :=
  ⟨claim_C6_identical_points.1 [(2, 2), (2, 2)] (by decide) (by decide),
    claim_C6_identical_points.2 ⟨5, 5⟩ [⟨5, 5⟩, ⟨5, 5⟩] (by decide)⟩

/-- C7: `RationalNumber::new` with a nonzero denominator stores a pair in
lowest terms: the gcd of the absolute values of the stored fields is 1. -/
theorem claim_C7_reduced (numerator denominator : Int) (hd : denominator ≠ 0) :
    Nat.gcd (RationalNumber.new numerator denominator).numerator.natAbs
      (RationalNumber.new numerator denominator).denominator.natAbs = 1 :=
  new_reduced hd

/-- Witness for C7 at `new 6 (-4)`. -/
theorem claim_C7_witness :
    Nat.gcd (RationalNumber.new 6 (-4)).numerator.natAbs
      (RationalNumber.new 6 (-4)).denominator.natAbs = 1 :=
  claim_C7_reduced 6 (-4) (by decide)

/-- C8: fraction equality is not sign-normalised — `1/(-2)` and `(-1)/2`
represent the same ratio but construct unequal `RationalNumber`s. -/
theorem claim_C8_sign_asymmetric :
    RationalNumber.new 1 (-2) ≠ RationalNumber.new (-1) 2 ∧
    (1 : Int) * 2 = (-1) * (-2) := by
  constructor
  · simp [RationalNumber.new, gcd_eval]
  · norm_num

/-- C9: vertical pairs are diverted to `Slope.Undefined` before any fraction
is built, and whenever a fraction is built the pre-reduction denominator
`a.x - b.x` and the gcd it is divided by are both nonzero. -/
theorem claim_C9_nonzero_denominator (a b : Point) :
    (a.x = b.x → slope a b = Slope.Undefined) ∧
    (a.x ≠ b.x →
      slope a b = Slope.Defined (RationalNumber.new (a.y - b.y) (a.x - b.x)) ∧
      a.x - b.x ≠ 0 ∧
      greatest_common_divisor (a.y - b.y) (a.x - b.x) ≠ 0) := by
  constructor
  · exact slope_of_eq
  · intro hx
    exact ⟨slope_of_ne hx, fun h => hx (by omega), gcd_ne_zero (fun h => hx (by omega))⟩

/-- Witness for C9 at `a = (0,0)`, `b = (0,7)` (vertical) and `b = (1,2)`
(non-vertical). -/
theorem claim_C9_witness :
    slope ⟨0, 0⟩ ⟨0, 7⟩ = Slope.Undefined ∧
    (slope ⟨0, 0⟩ ⟨1, 2⟩ =
        Slope.Defined (RationalNumber.new ((0 : Int) - 2) ((0 : Int) - 1)) ∧
      (0 : Int) - 1 ≠ 0 ∧
      greatest_common_divisor ((0 : Int) - 2) ((0 : Int) - 1) ≠ 0) :=
  ⟨(claim_C9_nonzero_denominator ⟨0, 0⟩ ⟨0, 7⟩).1 (by decide),
    (claim_C9_nonzero_denominator ⟨0, 0⟩ ⟨1, 2⟩).2 (by decide)⟩

/-- C10: on the empty input the maximisation step has nothing to maximise
over; the model returns `none`, standing for the `unwrap` panic. -/
theorem claim_C10_empty_input : max_collinear_points [] = none := rfl

end MaxPoints
